import Mathlib

/-!
Shallow embedding of the `shell-tester` library (`src/index.ts`).

Strings are modelled as `List Char` (JavaScript string operations used by the
code — `indexOf`, `slice`, `+=` — are position-based and encoding-independent
for the properties below). Each definition mirrors one function or code path
of the source; the correspondence is noted in its doc comment.
-/

set_option autoImplicit false

namespace ShellTesterModel

/-- JavaScript `s.indexOf(pat)` on strings, returning `some i` for the first
index at which `pat` occurs in `s` and `none` when `pat` does not occur
(JS returns `-1`). As in JS, the empty pattern is found at index 0. -/
def listIndexOf? (pat : List Char) : List Char → Option Nat
  | [] => if pat.isPrefixOf [] then some 0 else none
  | c :: t =>
    if pat.isPrefixOf (c :: t) then some 0
    else (listIndexOf? pat t).map (· + 1)

theorem listIndexOf?_nil_left (s : List Char) : listIndexOf? [] s = some 0 := by
  cases s <;> simp [listIndexOf?, List.isPrefixOf]

/-- If `listIndexOf?` finds an index, the pattern occurs there, the index is
within bounds, and no earlier index carries an occurrence (first match). -/
theorem listIndexOf?_eq_some (pat s : List Char) (i : Nat)
    (h : listIndexOf? pat s = some i) :
    pat <+: s.drop i ∧ i + pat.length ≤ s.length ∧
      ∀ j, j < i → ¬ pat <+: s.drop j := by
  induction s generalizing i with
  | nil =>
    simp only [listIndexOf?] at h
    split at h
    · rename_i hp
      cases h
      refine ⟨List.isPrefixOf_iff_prefix.mp hp, ?_, ?_⟩
      · have := (List.isPrefixOf_iff_prefix.mp hp).length_le
        simpa using this
      · intro j hj; omega
    · cases h
  | cons c t ih =>
    simp only [listIndexOf?] at h
    split at h
    · rename_i hp
      cases h
      refine ⟨List.isPrefixOf_iff_prefix.mp hp, ?_, ?_⟩
      · have := (List.isPrefixOf_iff_prefix.mp hp).length_le
        simpa using this
      · intro j hj; omega
    · rename_i hp
      cases hmap : listIndexOf? pat t with
      | none => rw [hmap] at h; cases h
      | some n =>
        rw [hmap] at h
        simp only [Option.map_some'] at h
        cases h
        obtain ⟨h1, h2, h3⟩ := ih n hmap
        refine ⟨by simpa using h1, by simp only [List.length_cons]; omega, ?_⟩
        intro j hj
        cases j with
        | zero =>
          intro hc
          exact hp (List.isPrefixOf_iff_prefix.mpr (by simpa using hc))
        | succ j =>
          have := h3 j (by omega)
          simpa using this

/-- If `listIndexOf?` reports no occurrence, there is none at any index. -/
theorem listIndexOf?_eq_none (pat s : List Char)
    (h : listIndexOf? pat s = none) :
    ∀ j, ¬ pat <+: s.drop j := by
  induction s with
  | nil =>
    simp only [listIndexOf?] at h
    split at h
    · cases h
    · rename_i hp
      intro j hc
      exact hp (List.isPrefixOf_iff_prefix.mpr (by simpa using hc))
  | cons c t ih =>
    simp only [listIndexOf?] at h
    split at h
    · cases h
    · rename_i hp
      cases hmap : listIndexOf? pat t with
      | some n => rw [hmap] at h; cases h
      | none =>
        intro j
        cases j with
        | zero =>
          intro hc
          exact hp (List.isPrefixOf_iff_prefix.mpr (by simpa using hc))
        | succ j =>
          simpa using ih hmap j

/-- Occurrence at some index is the same as being an infix. -/
theorem infix_iff_exists_drop (pat s : List Char) :
    pat <:+: s ↔ ∃ i, pat <+: s.drop i := by
  constructor
  · rintro ⟨u, v, rfl⟩
    exact ⟨u.length, by simp [List.drop_append_of_le_length, List.prefix_append]⟩
  · rintro ⟨i, t, ht⟩
    refine ⟨s.take i, t, ?_⟩
    rw [List.append_assoc, ht, List.take_append_drop]

/-- `listIndexOf?` succeeds exactly on infixes. -/
theorem listIndexOf?_isSome_iff (pat s : List Char) :
    (listIndexOf? pat s).isSome ↔ pat <:+: s := by
  constructor
  · intro h
    cases hidx : listIndexOf? pat s with
    | none => rw [hidx] at h; cases h
    | some i =>
      obtain ⟨h1, _, _⟩ := listIndexOf?_eq_some pat s i hidx
      exact (infix_iff_exists_drop pat s).mpr ⟨i, h1⟩
  · intro h
    cases hidx : listIndexOf? pat s with
    | none =>
      obtain ⟨i, hi⟩ := (infix_iff_exists_drop pat s).mp h
      exact absurd hi (listIndexOf?_eq_none pat s hidx i)
    | some i => simp

/-- One hexadecimal digit, lowercase, as emitted by `JSON.stringify` in
`\u00XX` escapes. -/
def hexDigit (n : Nat) : Char :=
  if n < 10 then Char.ofNat (48 + n) else Char.ofNat (87 + n)

/-- The escape `JSON.stringify` applies to a single character of a string. -/
def jsonEscapeChar (c : Char) : List Char :=
  if c = '"' then ['\\', '"']
  else if c = '\\' then ['\\', '\\']
  else if c = '\x08' then ['\\', 'b']
  else if c = '\x0c' then ['\\', 'f']
  else if c = '\n' then ['\\', 'n']
  else if c = '\r' then ['\\', 'r']
  else if c = '\t' then ['\\', 't']
  else if c.toNat < 32 then
    ['\\', 'u', '0', '0', hexDigit (c.toNat / 16), hexDigit (c.toNat % 16)]
  else [c]

/-- `JSON.stringify(s)` for a string `s`: a double-quoted, escaped copy. -/
def jsonStringify (s : List Char) : List Char :=
  '"' :: (s.flatMap jsonEscapeChar) ++ ['"']

/-- The timeout rejection message built by `expect` in `src/index.ts`:
`new Error(` followed by `Expected ${JSON.stringify(str)} not found`. -/
def errMsg (pat : List Char) : List Char :=
  "Expected ".toList ++ jsonStringify pat ++ " not found".toList

theorem jsonStringify_infix_errMsg (pat : List Char) :
    jsonStringify pat <:+: errMsg pat :=
  ⟨"Expected ".toList, " not found".toList, rfl⟩

/-! ## The `expect` waiter state machine

`ShellSession.expect(str, timeoutMs)` creates one waiter: a `check` closure
registered in `this._listeners`, and a timer. `check` looks for `str` in
`this._output`; on a hit it truncates the buffer past the first occurrence,
removes itself from the listener set, clears the timer and resolves. The
timer callback removes `check` and rejects with `errMsg`. `check` runs once
synchronously at registration, and again on every inbound data chunk (the
`onData` handler appends the chunk to `_output` and then invokes every
registered listener). -/

/-- Outcome of a settled `expect` promise. -/
inductive ExpOutcome where
  | resolved : ExpOutcome
  | timedOut : List Char → ExpOutcome
deriving DecidableEq

/-- State of one `expect` call: the session's output buffer, whether `check`
is still in `_listeners`, whether the timer is still pending
(`clearTimeout` not yet called and not yet fired), and the promise result. -/
structure ExpState where
  output : List Char
  registered : Bool
  timerActive : Bool
  result : Option ExpOutcome
deriving DecidableEq

/-- The body of the `check` closure in `expect`: look up the pattern with
`indexOf`; on a hit, `slice` the buffer past the match, deregister, clear
the timer, and resolve. -/
def expectCheckStep (pat : List Char) (s : ExpState) : ExpState :=
  match listIndexOf? pat s.output with
  | some i =>
    { output := s.output.drop (i + pat.length)
      registered := false
      timerActive := false
      result := some .resolved }
  | none => s

/-- Entry into `expect`: the timer is armed, `check` is added to
`_listeners`, and `check()` is invoked once synchronously. -/
def expectInit (pat buf : List Char) : ExpState :=
  expectCheckStep pat
    { output := buf, registered := true, timerActive := true, result := none }

/-- Events affecting one pending `expect`: an inbound PTY data chunk, or the
firing of its timeout timer. -/
inductive ExpEvent where
  | chunk : List Char → ExpEvent
  | fire : ExpEvent

/-- One event processed against a waiter. A chunk is appended to the output
buffer (`this._output += data`) and then `check` runs if it is still
registered. The timer firing (only possible while not cleared) deregisters
`check` and rejects with the timeout error message. -/
def expStep (pat : List Char) (s : ExpState) : ExpEvent → ExpState
  | .chunk d =>
    let s1 : ExpState := { s with output := s.output ++ d }
    if s1.registered then expectCheckStep pat s1 else s1
  | .fire =>
    if s.timerActive then
      { s with registered := false, timerActive := false
               result := some (.timedOut (errMsg pat)) }
    else s

/-- A full `expect` call: initial synchronous check, then a sequence of
events. -/
def expRun (pat buf : List Char) (evs : List ExpEvent) : ExpState :=
  evs.foldl (expStep pat) (expectInit pat buf)

/-- The waiter state while no match has been seen: buffer accumulated,
`check` registered, timer armed, promise pending. -/
def waitingState (acc : List Char) : ExpState :=
  { output := acc, registered := true, timerActive := true, result := none }

/-- The waiter state after a match at index `i` of the accumulated stream
`acc`: buffer truncated past the occurrence, waiter gone, timer cleared,
promise resolved. -/
def resolvedState (pat acc : List Char) (i : Nat) : ExpState :=
  { output := acc.drop (i + pat.length)
    registered := false
    timerActive := false
    result := some .resolved }

/-- Reachability invariant of the waiter machine under chunk events, with
`acc` the initial buffer followed by every chunk so far: the waiter is
either still waiting (and the pattern has never occurred) or resolved at
some occurrence `i`. -/
def ExpInv (pat acc : List Char) (s : ExpState) : Prop :=
  (s = waitingState acc ∧ ¬ pat <:+: acc) ∨
  (∃ i, i + pat.length ≤ acc.length ∧ pat <+: acc.drop i ∧
    s = resolvedState pat acc i)

theorem expectCheckStep_waiting (pat acc : List Char) :
    ExpInv pat acc (expectCheckStep pat (waitingState acc)) := by
  unfold expectCheckStep waitingState
  cases hidx : listIndexOf? pat acc with
  | some i =>
    obtain ⟨h1, h2, _⟩ := listIndexOf?_eq_some pat acc i hidx
    exact Or.inr ⟨i, h2, h1, rfl⟩
  | none =>
    refine Or.inl ⟨rfl, ?_⟩
    intro hinf
    obtain ⟨i, hi⟩ := (infix_iff_exists_drop pat acc).mp hinf
    exact listIndexOf?_eq_none pat acc hidx i hi

theorem expInv_init (pat buf : List Char) :
    ExpInv pat buf (expectInit pat buf) :=
  expectCheckStep_waiting pat buf

/-- One chunk preserves the invariant (with the accumulated stream grown by
the chunk). -/
theorem expInv_chunk (pat acc d : List Char) (s : ExpState)
    (h : ExpInv pat acc s) :
    ExpInv pat (acc ++ d) (expStep pat s (.chunk d)) := by
  rcases h with ⟨rfl, _⟩ | ⟨i, hle, hocc, rfl⟩
  · have : expStep pat (waitingState acc) (.chunk d)
        = expectCheckStep pat (waitingState (acc ++ d)) := by
      simp [expStep, waitingState]
    rw [this]
    exact expectCheckStep_waiting pat (acc ++ d)
  · right
    refine ⟨i, ?_, ?_, ?_⟩
    · simp only [List.length_append]; omega
    · have hd : (acc ++ d).drop i = acc.drop i ++ d :=
        List.drop_append_of_le_length (by omega)
      rw [hd]
      exact hocc.trans (List.prefix_append (acc.drop i) d)
    · simp only [expStep, resolvedState]
      have hd : (acc ++ d).drop (i + pat.length)
          = acc.drop (i + pat.length) ++ d :=
        List.drop_append_of_le_length hle
      simp [hd]

/-- Any chunk sequence preserves the invariant. -/
theorem expInv_chunks (pat : List Char) (cs : List (List Char))
    (acc : List Char) (s : ExpState) (h : ExpInv pat acc s) :
    ExpInv pat (acc ++ cs.flatten)
      ((cs.map ExpEvent.chunk).foldl (expStep pat) s) := by
  induction cs generalizing acc s with
  | nil => simpa using h
  | cons c cs ih =>
    have h1 := expInv_chunk pat acc c s h
    have h2 := ih (acc ++ c) _ h1
    simpa [List.append_assoc] using h2

/-- Dichotomy for an `expect` run over data chunks: either the pattern never
occurred and the waiter is still waiting on the fully accumulated buffer, or
it resolved at an occurrence and the buffer is truncated past it. -/
theorem expRun_chunks (pat buf : List Char) (cs : List (List Char)) :
    (expRun pat buf (cs.map .chunk) = waitingState (buf ++ cs.flatten) ∧
      ¬ pat <:+: (buf ++ cs.flatten)) ∨
    (∃ i, i + pat.length ≤ (buf ++ cs.flatten).length ∧
      pat <+: (buf ++ cs.flatten).drop i ∧
      expRun pat buf (cs.map .chunk) = resolvedState pat (buf ++ cs.flatten) i) :=
  expInv_chunks pat cs buf (expectInit pat buf) (expInv_init pat buf)

/-- Once the promise is rejected by the timer, the waiter is gone: any later
events only append data to the buffer; the result and the (absent)
registration never change. -/
theorem expStep_after_timeout (pat m acc : List Char) (evs : List ExpEvent) :
    ∃ extra : List Char,
      evs.foldl (expStep pat)
        { output := acc, registered := false, timerActive := false
          result := some (.timedOut m) }
      = { output := acc ++ extra, registered := false, timerActive := false
          result := some (.timedOut m) } := by
  induction evs generalizing acc with
  | nil => exact ⟨[], by simp⟩
  | cons e evs ih =>
    cases e with
    | chunk d =>
      obtain ⟨extra, hx⟩ := ih (acc ++ d)
      exact ⟨d ++ extra, by simpa [expStep, List.append_assoc] using hx⟩
    | fire =>
      obtain ⟨extra, hx⟩ := ih acc
      exact ⟨extra, by simpa [expStep] using hx⟩

/-- The number of occurrence positions of `pat` in `s` (indices `i` with
`pat` a prefix of `s.drop i`; for nonempty `pat` every occurrence index is
at most `s.length`, so the range below covers all of them). -/
def occCount (pat s : List Char) : Nat :=
  ((List.range (s.length + 1)).filter (fun i => pat.isPrefixOf (s.drop i))).length

theorem occ_index_le (pat s : List Char) (hne : pat ≠ []) (i : Nat)
    (h : pat <+: s.drop i) : i ≤ s.length := by
  by_contra hgt
  push_neg at hgt
  rw [List.drop_eq_nil_of_le (by omega)] at h
  exact hne (List.prefix_nil.mp h)

/-- When `pat` is nonempty and occurs exactly once in `s`, any two
occurrence indices coincide. -/
theorem occCount_unique (pat s : List Char) (hne : pat ≠ [])
    (hone : occCount pat s = 1) (i j : Nat)
    (hi : pat <+: s.drop i) (hj : pat <+: s.drop j) : i = j := by
  by_contra hij
  have hmem : ∀ k, pat <+: s.drop k →
      k ∈ (List.range (s.length + 1)).filter
        (fun m => pat.isPrefixOf (s.drop m)) := by
    intro k hk
    rw [List.mem_filter]
    refine ⟨List.mem_range.mpr ?_, by simpa using List.isPrefixOf_iff_prefix.mpr hk⟩
    have := occ_index_le pat s hne k hk
    omega
  have hsub : [i, j] ⊆ (List.range (s.length + 1)).filter
      (fun m => pat.isPrefixOf (s.drop m)) := by
    intro a ha
    rw [List.mem_cons, List.mem_singleton] at ha
    rcases ha with rfl | rfl
    · exact hmem _ hi
    · exact hmem _ hj
  have hnd : ([i, j] : List Nat).Nodup := by simp [hij]
  have hlen := (hnd.subperm hsub).length_le
  rw [occCount] at hone
  simp only [List.length_cons, List.length_nil] at hlen
  omega

/-- Claim C1: if the pattern already occurs in the output buffer, the
`expect` promise resolves synchronously, and the buffer afterwards is
exactly the content after the end of the first occurrence — nothing at or
before the end of that occurrence remains. -/
theorem expect_present_consumes (pat buf : List Char) (h : pat <:+: buf) :
    (expectInit pat buf).result = some ExpOutcome.resolved ∧
    ∃ i, pat <+: buf.drop i ∧ (∀ j, j < i → ¬ pat <+: buf.drop j) ∧
      (expectInit pat buf).output = buf.drop (i + pat.length) := by
  have hsome : (listIndexOf? pat buf).isSome :=
    (listIndexOf?_isSome_iff pat buf).mpr h
  cases hidx : listIndexOf? pat buf with
  | none => rw [hidx] at hsome; cases hsome
  | some i =>
    obtain ⟨h1, _, h3⟩ := listIndexOf?_eq_some pat buf i hidx
    have hres : expectInit pat buf = resolvedState pat buf i := by
      unfold expectInit expectCheckStep resolvedState
      simp only [hidx]
    exact ⟨by rw [hres]; rfl, i, h1, h3, by rw [hres]; rfl⟩

theorem expect_present_consumes_witness :
    (expectInit "lo".toList "hello world".toList).result
        = some ExpOutcome.resolved ∧
    ∃ i, "lo".toList <+: ("hello world".toList).drop i ∧
      (∀ j, j < i → ¬ "lo".toList <+: ("hello world".toList).drop j) ∧
      (expectInit "lo".toList "hello world".toList).output
        = ("hello world".toList).drop (i + "lo".toList.length) :=
  expect_present_consumes "lo".toList "hello world".toList (by decide)

/-- Claim C2: if the pattern never occurs — not in the initial buffer and
not after any chunk arriving before the timer fires — the `expect` call is
rejected with a timeout error whose message carries the JSON encoding of
the unmatched pattern, the waiter is deregistered from the listener set,
and no events after the timeout (in particular no later data chunk, even
one containing the pattern) can change the rejected result. -/
theorem expect_timeout_deregisters (pat buf : List Char)
    (pre : List (List Char)) (post : List ExpEvent)
    (h : ¬ pat <:+: (buf ++ pre.flatten)) :
    (expRun pat buf (pre.map .chunk ++ [.fire])).result
        = some (ExpOutcome.timedOut (errMsg pat)) ∧
    (expRun pat buf (pre.map .chunk ++ [.fire])).registered = false ∧
    jsonStringify pat <:+: errMsg pat ∧
    (expRun pat buf (pre.map .chunk ++ [.fire] ++ post)).result
        = some (ExpOutcome.timedOut (errMsg pat)) := by
  rcases expRun_chunks pat buf pre with ⟨heq, _⟩ | ⟨i, _, hocc, _⟩
  · have h1 : expRun pat buf (pre.map .chunk ++ [.fire])
        = { output := buf ++ pre.flatten, registered := false
            timerActive := false
            result := some (.timedOut (errMsg pat)) } := by
      rw [expRun, List.foldl_append]
      rw [expRun] at heq
      rw [heq]
      simp [expStep, waitingState]
    refine ⟨by rw [h1], by rw [h1], jsonStringify_infix_errMsg pat, ?_⟩
    obtain ⟨extra, hx⟩ :=
      expStep_after_timeout pat (errMsg pat) (buf ++ pre.flatten) post
    have h2 : expRun pat buf (pre.map .chunk ++ [.fire] ++ post)
        = post.foldl (expStep pat)
            (expRun pat buf (pre.map .chunk ++ [.fire])) := by
      rw [expRun, expRun, List.foldl_append]
    rw [h2, h1, hx]
  · exact absurd ((infix_iff_exists_drop pat (buf ++ pre.flatten)).mpr ⟨i, hocc⟩) h

theorem expect_timeout_deregisters_witness :
    (expRun ['X'] ['a'] ([['b']].map .chunk ++ [.fire])).result
      = some (ExpOutcome.timedOut (errMsg ['X'])) ∧
    (expRun ['X'] ['a'] ([['b']].map .chunk ++ [.fire])).registered = false ∧
    jsonStringify ['X'] <:+: errMsg ['X'] ∧
    (expRun ['X'] ['a'] ([['b']].map .chunk ++ [.fire]
        ++ [ExpEvent.chunk ['X']])).result
      = some (ExpOutcome.timedOut (errMsg ['X'])) :=
  expect_timeout_deregisters ['X'] ['a'] [['b']]
    [ExpEvent.chunk ['X']] (by decide)

/-- Claim C8: when the pattern is nonempty and occurs exactly once in the
whole inbound stream, and the single occurrence arrives during the first
`expect`, the first call resolves (consuming the buffer through the
occurrence) and a second `expect` over the remaining stream times out:
no buffer state visible to it ever contains the pattern. -/
theorem expect_twice_second_times_out (pat s0 : List Char)
    (cs1 cs2 : List (List Char)) (hne : pat ≠ [])
    (hone : occCount pat (s0 ++ cs1.flatten ++ cs2.flatten) = 1)
    (hfirst : pat <:+: (s0 ++ cs1.flatten)) :
    (expRun pat s0 (cs1.map .chunk)).result = some ExpOutcome.resolved ∧
    (expRun pat (expRun pat s0 (cs1.map .chunk)).output
        (cs2.map .chunk ++ [.fire])).result
      = some (ExpOutcome.timedOut (errMsg pat)) := by
  rcases expRun_chunks pat s0 cs1 with ⟨_, hni⟩ | ⟨i, hle, hocc, heq⟩
  · exact absurd hfirst hni
  · have houtput : (expRun pat s0 (cs1.map .chunk)).output
        = (s0 ++ cs1.flatten).drop (i + pat.length) := by
      rw [heq]; rfl
    have hres : (expRun pat s0 (cs1.map .chunk)).result
        = some ExpOutcome.resolved := by
      rw [heq]; rfl
    refine ⟨hres, ?_⟩
    rw [houtput]
    set b1 : List Char := (s0 ++ cs1.flatten).drop (i + pat.length) with hb1
    have hb : b1 ++ cs2.flatten
        = (s0 ++ cs1.flatten ++ cs2.flatten).drop (i + pat.length) := by
      rw [hb1, List.drop_append_of_le_length hle]
    have hoccfull : pat <+: (s0 ++ cs1.flatten ++ cs2.flatten).drop i := by
      have hd : (s0 ++ cs1.flatten ++ cs2.flatten).drop i
          = (s0 ++ cs1.flatten).drop i ++ cs2.flatten :=
        List.drop_append_of_le_length (by omega)
      rw [hd]
      exact hocc.trans (List.prefix_append _ _)
    rcases expRun_chunks pat b1 cs2 with ⟨heq2, _⟩ | ⟨j, _, hocc2, _⟩
    · rw [expRun, List.foldl_append]
      rw [expRun] at heq2
      rw [heq2]
      simp [expStep, waitingState]
    · exfalso
      rw [hb, List.drop_drop] at hocc2
      have := occCount_unique pat (s0 ++ cs1.flatten ++ cs2.flatten) hne hone
        i (i + pat.length + j) hoccfull hocc2
      have hlen0 : pat.length = 0 := by omega
      exact hne (List.length_eq_zero.mp hlen0)

theorem expect_twice_second_times_out_witness :
    (expRun ['X'] [] ([['a', 'X', 'b']].map .chunk)).result
        = some ExpOutcome.resolved ∧
    (expRun ['X'] (expRun ['X'] [] ([['a', 'X', 'b']].map .chunk)).output
        ([['c']].map .chunk ++ [.fire])).result
      = some (ExpOutcome.timedOut (errMsg ['X'])) :=
  expect_twice_second_times_out ['X'] [] [['a', 'X', 'b']] [['c']]
    (by decide) (by decide) (by decide)

/-- Claim C10: `expect` with the empty pattern resolves synchronously for
every buffer state (the empty pattern is found at index 0) and leaves the
buffer completely unchanged. -/
theorem expect_empty_resolves (buf : List Char) :
    expectInit [] buf
      = { output := buf, registered := false, timerActive := false
          result := some ExpOutcome.resolved } := by
  unfold expectInit expectCheckStep
  simp [listIndexOf?_nil_left]

/-! ## The Stabilizer

`Stabilizer` keeps `_lastTime` (set to `Date.now()` by `debounce()`, which
the session's `onData` handler calls once per inbound chunk) and
`_timeToStabilize = _lastTime + 100`. `waitUntilStabilized()` loops: while
`Date.now() < _timeToStabilize`, sleep for `_timeToStabilize - Date.now()`
milliseconds and re-check. Time is modelled in integral milliseconds; the
environment is a sorted schedule `ds` of future `debounce()` call times (a
`debounce` at time `d` sets `_lastTime := d`), and `slops` gives the extra
delay of each `setTimeout` wake-up beyond the requested instant (a timer
never fires early). -/

/-- Apply every scheduled `debounce()` whose time is at most `upTo` (they
occur, in order, while the wait sleeps); each sets `_lastTime` to its own
time. Returns the new `_lastTime` and the still-pending schedule. -/
def applyDebounces (lastTime upTo : Nat) : List Nat → Nat × List Nat
  | [] => (lastTime, [])
  | d :: ds => if d ≤ upTo then applyDebounces d upTo ds else (lastTime, d :: ds)

/-- `Stabilizer.waitUntilStabilized`, fuelled. State: current time `now`,
`_lastTime`, pending debounce schedule, remaining timer slops. Returns
`(now, lastTime, pending)` at the moment the loop condition
`now < lastTime + 100` first fails, or `none` if the fuel runs out. -/
def waitUntilStabilized : Nat → Nat → Nat → List Nat → List Nat →
    Option (Nat × Nat × List Nat)
  | 0, _, _, _, _ => none
  | fuel + 1, now, lastTime, ds, slops =>
    if now < lastTime + 100 then
      let wake := lastTime + 100 + slops.headD 0
      let next := applyDebounces lastTime wake ds
      waitUntilStabilized fuel wake next.1 next.2 slops.tail
    else some (now, lastTime, ds)

theorem applyDebounces_spec (lastTime upTo : Nat) (ds : List Nat)
    (hsorted : List.Sorted (· ≤ ·) ds) :
    List.Sorted (· ≤ ·) (applyDebounces lastTime upTo ds).2 ∧
    ∀ d ∈ (applyDebounces lastTime upTo ds).2, upTo < d := by
  induction ds generalizing lastTime with
  | nil => simp [applyDebounces]
  | cons d ds ih =>
    rw [List.sorted_cons] at hsorted
    by_cases hd : d ≤ upTo
    · simpa [applyDebounces, hd] using ih d hsorted.2
    · refine ⟨?_, ?_⟩
      · simpa [applyDebounces, hd] using List.sorted_cons.mpr hsorted
      · intro x hx
        simp only [applyDebounces, if_neg hd] at hx
        rw [List.mem_cons] at hx
        rcases hx with rfl | hx
        · omega
        · have := hsorted.1 x hx
          omega

/-- Claim C3: whenever `waitUntilStabilized` returns, the time of return is
at least 100 ms after the most recent `_lastTime` — for every schedule of
`debounce()` calls injected during the wait (each of which pushes
`_lastTime` forward) and every pattern of timer lateness. All debounces up
to the return instant have been consumed: the remaining ones are strictly
in the future, so the `lastTime` observed at return is the most recent
one. -/
theorem waitUntilStabilized_quiet (fuel now lastTime : Nat)
    (ds slops : List Nat) (hsorted : List.Sorted (· ≤ ·) ds)
    (hfut : ∀ d ∈ ds, now < d)
    (r : Nat × Nat × List Nat)
    (h : waitUntilStabilized fuel now lastTime ds slops = some r) :
    r.2.1 + 100 ≤ r.1 ∧ ∀ d ∈ r.2.2, r.1 < d := by
  induction fuel generalizing now lastTime ds slops with
  | zero => cases h
  | succ fuel ih =>
    rw [waitUntilStabilized] at h
    split at h
    · obtain ⟨hs, hf⟩ :=
        applyDebounces_spec lastTime (lastTime + 100 + slops.headD 0) ds hsorted
      exact ih _ _ _ _ hs hf h
    · cases h
      rename_i hstop
      refine ⟨?_, ?_⟩
      · show lastTime + 100 ≤ now
        omega
      · show ∀ d ∈ ds, now < d
        exact hfut

theorem waitUntilStabilized_quiet_witness :
    (120 : Nat) + 100 ≤ 220 ∧ ∀ d ∈ ([] : List Nat), 220 < d :=
  waitUntilStabilized_quiet 5 0 0 [50, 120] [] (by decide) (by decide)
    (220, 120, []) (by decide)

/-! ## The retry engine

`ShellSession.retry(callback, timeoutMs)` records `start = Date.now()` and
loops: call `callback()`; return its value on success; on failure re-raise
when `Date.now() - start > timeoutMs`, else call again immediately. The
`k`-th invocation of the probe is modelled by `probe k : Except E A`, and
`tAfter k` is the value `Date.now()` reads when the `k`-th failure is
checked against the budget. -/

def retry {E A : Type} (probe : Nat → Except E A) (tAfter : Nat → Nat)
    (start timeoutMs : Nat) : Nat → Nat → Option (Except E A)
  | 0, _ => none
  | fuel + 1, k =>
    match probe k with
    | .ok a => some (.ok a)
    | .error e =>
      if timeoutMs < tAfter k - start then some (.error e)
      else retry probe tAfter start timeoutMs fuel (k + 1)

/-- Claim C4: a completed `retry` run starting at attempt `k` identifies an
attempt `m` such that every attempt from `k` up to `m` exclusive failed
within the budget and was therefore followed by another invocation, and
either the run returns the value of attempt `m`, the first successful one,
or it raises exactly the failure of attempt `m`, the last invocation, whose
budget check found the elapsed wall time strictly above `timeoutMs` (hence
at least `timeoutMs`). -/
theorem retry_characterization {E A : Type} (probe : Nat → Except E A)
    (tAfter : Nat → Nat) (start timeoutMs fuel k : Nat)
    (r : Except E A)
    (h : retry probe tAfter start timeoutMs fuel k = some r) :
    ∃ m, k ≤ m ∧
      (∀ j, k ≤ j → j < m →
        ∃ e, probe j = .error e ∧ tAfter j - start ≤ timeoutMs) ∧
      ((∃ a, r = .ok a ∧ probe m = .ok a) ∨
        (∃ e, r = .error e ∧ probe m = .error e ∧
          timeoutMs < tAfter m - start ∧ timeoutMs ≤ tAfter m - start)) := by
  induction fuel generalizing k with
  | zero => cases h
  | succ fuel ih =>
    rw [retry] at h
    cases hp : probe k with
    | ok a =>
      simp only [hp] at h
      cases h
      exact ⟨k, le_refl k, fun j h1 h2 => by omega, Or.inl ⟨a, rfl, hp⟩⟩
    | error e =>
      simp only [hp] at h
      split at h
      · cases h
        rename_i hover
        exact ⟨k, le_refl k, fun j h1 h2 => by omega,
          Or.inr ⟨e, rfl, hp, hover, by omega⟩⟩
      · rename_i hwithin
        obtain ⟨m, hm1, hm2, hm3⟩ := ih (k + 1) h
        refine ⟨m, by omega, ?_, hm3⟩
        intro j h1 h2
        rcases Nat.eq_or_lt_of_le h1 with rfl | hlt
        · exact ⟨e, hp, by omega⟩
        · exact hm2 j (by omega) h2

theorem retry_characterization_witness :
    ∃ m, 0 ≤ m ∧
      (∀ j, 0 ≤ j → j < m →
        ∃ e, (fun k => if k < 2 then Except.error k else Except.ok 99) j
            = Except.error e ∧ (fun k => k * 10) j - 0 ≤ 30) ∧
      ((∃ a, (Except.ok 99 : Except Nat Nat) = Except.ok a ∧
        (fun k => if k < 2 then Except.error k else Except.ok 99) m
          = Except.ok a) ∨
        (∃ e, (Except.ok 99 : Except Nat Nat) = Except.error e ∧
          (fun k => if k < 2 then Except.error k else Except.ok 99) m
            = Except.error e ∧
          30 < (fun k => k * 10) m - 0 ∧ 30 ≤ (fun k => k * 10) m - 0)) :=
  retry_characterization (fun k => if k < 2 then Except.error k else Except.ok 99)
    (fun k => k * 10) 0 30 5 0 (Except.ok 99) rfl

/-! ## Session state and its operations

`ShellSession` owns `_output` (the output buffer), `_events` (the ordered
event log), the stabilizer's `_lastTime`, the terminal renderer (its
dimensions and the raw bytes fed to it), and the bytes written to the PTY.
The operations below are the state mutations of, respectively: the
`onData` arrival handler, `send`, `resize`, `capture`, and the `check`
closure of a registered `expect` waiter running against the buffer
(`retry` performs no mutation itself — it only re-invokes its callback,
whose own session operations are instances of these). -/

/-- One entry of `_events`, mirroring the object shapes pushed by the
source: `started`, `output` (with data), `send` (with data), and `resize`
(with cols and rows). Each carries its `Date.now()` timestamp. -/
inductive SEvent where
  | started : Nat → SEvent
  | output : Nat → List Char → SEvent
  | send : Nat → List Char → SEvent
  | resize : Nat → Nat → Nat → SEvent
deriving DecidableEq

/-- The mutable state of one `ShellSession`. -/
structure Session where
  output : List Char
  events : List SEvent
  lastTime : Nat
  termCols : Nat
  termRows : Nat
  termFed : List Char
  sent : List (List Char)
deriving DecidableEq

/-- A session operation, tagged with the `Date.now()` at which it runs. -/
inductive SOp where
  | data : List Char → Nat → SOp
  | send : List Char → Nat → SOp
  | resize : Nat → Nat → Nat → SOp
  | capture : SOp
  | expectCheck : List Char → SOp
deriving DecidableEq

/-- State transition of each operation, transcribed from `src/index.ts`:
the arrival handler debounces, appends the chunk to `_output`, pushes an
`output` event and feeds the renderer; `send` writes to the PTY and pushes
a `send` event; `resize` propagates the dimensions and pushes a `resize`
event; `capture` reads state but mutates none of it; a waiter's `check`
truncates `_output` past the first occurrence on a hit and does nothing
otherwise. -/
def applyOp (s : Session) : SOp → Session
  | .data d t =>
    { s with lastTime := t, output := s.output ++ d
             events := s.events ++ [SEvent.output t d]
             termFed := s.termFed ++ d }
  | .send d t =>
    { s with sent := s.sent ++ [d], events := s.events ++ [SEvent.send t d] }
  | .resize c r t =>
    { s with termCols := c, termRows := r
             events := s.events ++ [SEvent.resize t c r] }
  | .capture => s
  | .expectCheck pat =>
    match listIndexOf? pat s.output with
    | some i => { s with output := s.output.drop (i + pat.length) }
    | none => s

/-- Claim C5: the output-buffer invariant across every session operation.
A chunk arrival appends exactly the chunk at the end of the buffer; `send`,
`resize` and `capture` leave the buffer untouched; a waiter check with no
occurrence leaves it untouched, and with an occurrence truncates it to the
content after the first occurrence; and any operation that strictly shrinks
the buffer must be a waiter check whose nonempty pattern occurred in the
buffer. -/
theorem output_buffer_invariant :
    (∀ (s : Session) (d : List Char) (t : Nat),
      (applyOp s (.data d t)).output = s.output ++ d) ∧
    (∀ (s : Session) (d : List Char) (t : Nat),
      (applyOp s (.send d t)).output = s.output) ∧
    (∀ (s : Session) (c r t : Nat),
      (applyOp s (.resize c r t)).output = s.output) ∧
    (∀ s : Session, (applyOp s .capture).output = s.output) ∧
    (∀ (s : Session) (pat : List Char), ¬ pat <:+: s.output →
      (applyOp s (.expectCheck pat)).output = s.output) ∧
    (∀ (s : Session) (pat : List Char), pat <:+: s.output →
      ∃ i, pat <+: s.output.drop i ∧
        (∀ j, j < i → ¬ pat <+: s.output.drop j) ∧
        (applyOp s (.expectCheck pat)).output
          = s.output.drop (i + pat.length)) ∧
    (∀ (s : Session) (op : SOp),
      (applyOp s op).output.length < s.output.length →
      ∃ pat, op = .expectCheck pat ∧ pat <:+: s.output ∧ pat ≠ []) := by
  refine ⟨fun s d t => rfl, fun s d t => rfl, fun s c r t => rfl,
    fun s => rfl, ?_, ?_, ?_⟩
  · intro s pat h
    have : listIndexOf? pat s.output = none := by
      cases hidx : listIndexOf? pat s.output with
      | none => rfl
      | some i =>
        exact absurd ((listIndexOf?_isSome_iff pat s.output).mp
          (by rw [hidx]; rfl)) h
    simp [applyOp, this]
  · intro s pat h
    have hsome : (listIndexOf? pat s.output).isSome :=
      (listIndexOf?_isSome_iff pat s.output).mpr h
    cases hidx : listIndexOf? pat s.output with
    | none => rw [hidx] at hsome; cases hsome
    | some i =>
      obtain ⟨h1, _, h3⟩ := listIndexOf?_eq_some pat s.output i hidx
      exact ⟨i, h1, h3, by simp [applyOp, hidx]⟩
  · intro s op hlt
    cases op with
    | data d t => simp [applyOp] at hlt
    | send d t => simp [applyOp] at hlt
    | resize c r t => simp [applyOp] at hlt
    | capture => simp [applyOp] at hlt
    | expectCheck pat =>
      refine ⟨pat, rfl, ?_, ?_⟩
      · by_contra hni
        have hnone : listIndexOf? pat s.output = none := by
          cases hidx : listIndexOf? pat s.output with
          | none => rfl
          | some i =>
            exact absurd ((listIndexOf?_isSome_iff pat s.output).mp
              (by rw [hidx]; rfl)) hni
        simp [applyOp, hnone] at hlt
      · rintro rfl
        rw [show applyOp s (.expectCheck []) = s by
          simp [applyOp, listIndexOf?_nil_left]] at hlt
        omega

theorem output_buffer_invariant_witness :
    ∃ pat, SOp.expectCheck ['a'] = SOp.expectCheck pat ∧
      pat <:+: (Session.mk ['a', 'b'] [] 0 80 16 [] []).output ∧ pat ≠ [] :=
  output_buffer_invariant.2.2.2.2.2.2
    (Session.mk ['a', 'b'] [] 0 80 16 [] []) (SOp.expectCheck ['a'])
    (by decide)

/-! ## capture: rendered text and record assembly

`capture(name, extra)` reads `{cols, rows}` from the PTY handle, then for
each of the `rows` visible lines asks the renderer for the line and uses
`line?.translateToString() || ' '.repeat(cols)` — a missing line, or a line
rendering to the empty string (both falsy), is replaced by `cols` spaces.
The renderer is the external terminal-emulation collaborator; per its §6
interface contract it returns, per row, the rendered line text
trimmed/padded to exactly `cols` characters. It is modelled by a function
`render` from absolute row index to an optional line. -/

/-- The `text` array built by the capture loop. -/
def captureText (render : Nat → Option (List Char))
    (viewportY cols rows : Nat) : List (List Char) :=
  (List.range rows).map fun i =>
    match render (i + viewportY) with
    | some l => if l = [] then List.replicate cols ' ' else l
    | none => List.replicate cols ' '

/-- Claim C6: provided the renderer honours its interface contract (every
line it yields has exactly `cols` characters), every capture yields a
`text` of exactly `rows` lines, each of exactly `cols` characters, for the
`cols` and `rows` read at the time of the call. -/
theorem capture_text_dimensions (render : Nat → Option (List Char))
    (viewportY cols rows : Nat)
    (hrender : ∀ j l, render j = some l → l.length = cols) :
    (captureText render viewportY cols rows).length = rows ∧
    ∀ l ∈ captureText render viewportY cols rows, l.length = cols := by
  constructor
  · simp [captureText]
  · intro l hl
    rw [captureText, List.mem_map] at hl
    obtain ⟨i, _, hi⟩ := hl
    cases hr : render (i + viewportY) with
    | none => rw [hr] at hi; simp [← hi]
    | some line =>
      rw [hr] at hi
      by_cases hline : line = []
      · rw [hline] at hi
        simp only [if_pos rfl] at hi
        simp [← hi]
      · simp only [if_neg hline] at hi
        rw [← hi]
        exact hrender _ line hr

theorem capture_text_dimensions_witness :
    (captureText (fun _ => some [' ', ' ']) 0 2 3).length = 3 ∧
    ∀ l ∈ captureText (fun _ => some [' ', ' ']) 0 2 3, l.length = 2 :=
  capture_text_dimensions (fun _ => some [' ', ' ']) 0 2 3
    (fun j l hl => by injection hl with h2; rw [← h2]; rfl)

/-- Values stored in a capture record: the session's event log, a number
(`cols` / `rows`), the rendered lines, or an arbitrary caller-supplied
extra value (abstracted by a tag). -/
inductive CaptureVal where
  | ev : List SEvent → CaptureVal
  | num : Nat → CaptureVal
  | lines : List (List Char) → CaptureVal
  | other : Nat → CaptureVal
deriving DecidableEq

/-- JavaScript object lookup for an object assembled from an ordered list
of key-value bindings, as produced by an object literal with spreads:
a later binding for the same key overrides an earlier one. -/
def lookupLast (k : String) : List (String × CaptureVal) → Option CaptureVal
  | [] => none
  | (k', v) :: rest =>
    match lookupLast k rest with
    | some r => some r
    | none => if k' = k then some v else none

/-- The capture record `{ ...extra, events, cols, rows, text }` of
`src/index.ts`: the caller's `extra` bindings spread first, then the four
fixed fields written after them. -/
def captureRecord (extra : List (String × CaptureVal)) (events : List SEvent)
    (cols rows : Nat) (text : List (List Char)) :
    List (String × CaptureVal) :=
  extra ++ [("events", CaptureVal.ev events), ("cols", CaptureVal.num cols),
    ("rows", CaptureVal.num rows), ("text", CaptureVal.lines text)]

theorem lookupLast_append (k : String) (l1 l2 : List (String × CaptureVal)) :
    lookupLast k (l1 ++ l2) =
      match lookupLast k l2 with
      | some r => some r
      | none => lookupLast k l1 := by
  induction l1 with
  | nil =>
    rw [List.nil_append]
    cases h2 : lookupLast k l2 <;> simp [lookupLast]
  | cons p l1 ih =>
    obtain ⟨k', v⟩ := p
    simp only [List.cons_append, lookupLast, List.append_eq]
    rw [ih]
    cases h2 : lookupLast k l2 <;> cases h1 : lookupLast k l1 <;> simp

/-- Claim C9: in the record `{ ...extra, events, cols, rows, text }` the
four fixed fields always win: whatever bindings `extra` carries — including
bindings for the keys `events`, `cols`, `rows` or `text` — the assembled
record's values at those four keys are the session's own, never the
caller's. -/
theorem capture_fixed_fields_win (extra : List (String × CaptureVal))
    (events : List SEvent) (cols rows : Nat) (text : List (List Char)) :
    lookupLast "events" (captureRecord extra events cols rows text)
        = some (CaptureVal.ev events) ∧
    lookupLast "cols" (captureRecord extra events cols rows text)
        = some (CaptureVal.num cols) ∧
    lookupLast "rows" (captureRecord extra events cols rows text)
        = some (CaptureVal.num rows) ∧
    lookupLast "text" (captureRecord extra events cols rows text)
        = some (CaptureVal.lines text) := by
  refine ⟨?_, ?_, ?_, ?_⟩ <;>
    · rw [captureRecord, lookupLast_append]
      simp [lookupLast]

/-! ## The orchestrator (`ShellTester.run` / `ShellTester._runSession`)

`run(argv)` selects the registered session definitions (all of them when
`argv` is empty, by JS truthiness of `argv.length`, else those whose name
`argv` includes) and runs them one at a time with `await` in a `for` loop.
`_runSession` spawns a PTY, builds a `ShellSession`, invokes the callback
under `try`/`finally`; the `finally` performs
`capture(name + '_end', { implicit: true })` and then `ptyProcess.kill()`
on every exit path, and a callback failure then propagates, ending the
loop. A callback is abstracted by its outcome `cb name : Option Nat`
(`none` = fulfilled, `some e` = raised `e`); the orchestration steps are
recorded as a trace of actions. -/

/-- A registered session definition (its callback is passed separately as
an outcome function). -/
structure SessionDef where
  name : List Char
deriving DecidableEq

/-- The selection in `run`: `argv.length ? filter : all`. -/
def selectSessions (defs : List SessionDef) (argv : List (List Char)) :
    List SessionDef :=
  if argv.length ≠ 0 then defs.filter (fun d => argv.contains d.name) else defs

/-- Observable orchestration steps of `_runSession`. The `captureEnd`
action records the capture name and the `implicit` flag of its extra
field. -/
inductive RunAct where
  | spawn : List Char → RunAct
  | callback : List Char → RunAct
  | captureEnd : List Char → Bool → RunAct
  | kill : List Char → RunAct
deriving DecidableEq

/-- The steps `_runSession` performs for one definition, on both exit
paths: spawn the PTY and session, run the callback, and — succeed or
raise — capture under `name + "_end"` with `{ implicit: true }`, then kill
the PTY. -/
def sessionBlock (d : SessionDef) : List RunAct :=
  [RunAct.spawn d.name, RunAct.callback d.name,
    RunAct.captureEnd (d.name ++ "_end".toList) true, RunAct.kill d.name]

/-- The `for` loop of `run` over a list of definitions: each session's
block happens in order; a raised callback error stops the loop after that
session's `finally` block and propagates. -/
def runAll (cb : List Char → Option Nat) :
    List SessionDef → List RunAct × Option Nat
  | [] => ([], none)
  | d :: rest =>
    match cb d.name with
    | none =>
      let r := runAll cb rest
      (sessionBlock d ++ r.1, r.2)
    | some e => (sessionBlock d, some e)

/-- `ShellTester.run(argv)`: select, then run sequentially. -/
def runTester (defs : List SessionDef) (argv : List (List Char))
    (cb : List Char → Option Nat) : List RunAct × Option Nat :=
  runAll cb (selectSessions defs argv)

/-- Refinement reference, following the spec's words: the scripts that get
executed are the selected ones in order, up to and including the first one
whose callback fails; the remaining ones are aborted. -/
def specExecuted (cb : List Char → Option Nat) :
    List SessionDef → List SessionDef
  | [] => []
  | d :: rest =>
    d :: (if cb d.name = none then specExecuted cb rest else [])

/-- Refinement reference, following the spec's words: the failure that
propagates out of `run` is the first callback failure among the selected
scripts, if any. -/
def specFirstErr (cb : List Char → Option Nat) :
    List SessionDef → Option Nat
  | [] => none
  | d :: rest =>
    match cb d.name with
    | some e => some e
    | none => specFirstErr cb rest

theorem runAll_spec (cb : List Char → Option Nat) (l : List SessionDef) :
    (runAll cb l).1 = ((specExecuted cb l).map sessionBlock).flatten ∧
    (runAll cb l).2 = specFirstErr cb l := by
  induction l with
  | nil => exact ⟨rfl, rfl⟩
  | cons d rest ih =>
    cases hc : cb d.name with
    | none => simp [runAll, specExecuted, specFirstErr, hc, ih.1, ih.2]
    | some e => simp [runAll, specExecuted, specFirstErr, hc]

/-- Claim C7: `run` executes exactly the scripts the filter selects — all
of them when the filter is empty, else those whose name the filter holds —
in registration order, strictly sequentially (the trace is the
concatenation of per-script blocks); each executed script, whether its
callback fulfils or raises, gets a final capture named `name + "_end"`
with the implicit flag, followed by killing the PTY; and the error that
leaves `run` is the first callback failure, which aborts the scripts after
it. -/
theorem run_orchestration (defs : List SessionDef) (argv : List (List Char))
    (cb : List Char → Option Nat) :
    List.Sublist (selectSessions defs argv) defs ∧
    (∀ d, d ∈ selectSessions defs argv ↔
      d ∈ defs ∧ (argv = [] ∨ d.name ∈ argv)) ∧
    (runTester defs argv cb).1
      = ((specExecuted cb (selectSessions defs argv)).map sessionBlock).flatten ∧
    (runTester defs argv cb).2
      = specFirstErr cb (selectSessions defs argv) ∧
    (∀ d ∈ specExecuted cb (selectSessions defs argv),
      RunAct.captureEnd (d.name ++ "_end".toList) true
          ∈ (runTester defs argv cb).1 ∧
      RunAct.kill d.name ∈ (runTester defs argv cb).1) := by
  have hsel : List.Sublist (selectSessions defs argv) defs := by
    unfold selectSessions
    split
    · exact List.filter_sublist defs
    · exact List.Sublist.refl defs
  have hmem : ∀ d, d ∈ selectSessions defs argv ↔
      d ∈ defs ∧ (argv = [] ∨ d.name ∈ argv) := by
    intro d
    unfold selectSessions
    split
    · rename_i hne
      rw [List.mem_filter]
      have hargv : argv ≠ [] := by
        intro hc
        rw [hc] at hne
        exact hne rfl
      simp [List.contains, List.elem_iff, hargv]
    · rename_i hlen
      have hargv : argv = [] := by
        rcases argv with _ | ⟨a, argv⟩
        · rfl
        · exact absurd (by simp) hlen
      simp [hargv]
  obtain ⟨htrace, herr⟩ := runAll_spec cb (selectSessions defs argv)
  have htrace2 : (runTester defs argv cb).1
      = ((specExecuted cb (selectSessions defs argv)).map sessionBlock).flatten :=
    htrace
  refine ⟨hsel, hmem, htrace2, herr, ?_⟩
  intro d hd
  have hblock : sessionBlock d
      ∈ (specExecuted cb (selectSessions defs argv)).map sessionBlock :=
    List.mem_map_of_mem sessionBlock hd
  rw [htrace2]
  exact ⟨List.mem_flatten.mpr ⟨sessionBlock d, hblock, by simp [sessionBlock]⟩,
    List.mem_flatten.mpr ⟨sessionBlock d, hblock, by simp [sessionBlock]⟩⟩

theorem run_orchestration_witness :
    (runTester [SessionDef.mk ['a'], SessionDef.mk ['b']] [['b']]
        (fun _ => none)).1
      = ((specExecuted (fun _ => none)
          (selectSessions [SessionDef.mk ['a'], SessionDef.mk ['b']]
            [['b']])).map sessionBlock).flatten :=
  (run_orchestration [SessionDef.mk ['a'], SessionDef.mk ['b']] [['b']]
    (fun _ => none)).2.2.1

end ShellTesterModel
